import Mathlib

/-!
# Verification of the document-highlighter processing pipeline

Shallow embedding, in Lean 4, of the core of the `jayyanar/document-highligher`
backend: the chunked, rate-limited LLM scheduler (`utils/text_chunking.py`),
the extraction-result merger and enhancement fallback (`services/llm_service.py`),
the element-tree builder and validation stage (`agents/simple_workflow.py`), and
the result store (`services/storage.py`).

Conventions of the embedding:
* Python `str` is modelled as Lean `String`, or as `List Char` where character
  level reasoning is needed (the text chunker).
* Python `float` is modelled as `ℚ` (the constants involved — 0.1, 0.3, 0.7,
  0.8, 0.9, 1.0 — are exact in both).
* Python dicts used as JSON objects are modelled as insertion-ordered
  association lists with unique keys, matching dict semantics.
* Fallible code is modelled with `Except`/`Option`; `async` code that the
  claims treat functionally is modelled as explicit data flow, and the
  semaphore-bounded scheduler additionally gets a labelled transition system.
-/

/-! ## JSON-like values (`services/llm_service.py` works on parsed JSON) -/

/-- A JSON-like value as produced by `json.loads` in `llm_service.py`.
Objects are insertion-ordered association lists, mirroring Python dicts. -/
inductive JVal where
  | null : JVal
  | num (n : Int) : JVal
  | str (s : String) : JVal
  | arr (xs : List JVal) : JVal
  | obj (kvs : List (String × JVal)) : JVal

/-- First-match lookup in an association list (Python `key in d` / `d[key]`;
keys are unique in dicts, so first match is the match). -/
def jlookup (k : String) : List (String × JVal) → Option JVal
  | [] => none
  | (k', v') :: rest => if k' = k then some v' else jlookup k rest

/-- `d[key] = v` on a dict: replace the value at an existing key in place
(position preserved, as in Python dicts), else append the new key. -/
def jset : List (String × JVal) → String → JVal → List (String × JVal)
  | [], k, v => [(k, v)]
  | (k', v') :: rest, k, v =>
    if k' = k then (k, v) :: rest else (k', v') :: jset rest k v

/-- Python `base.update(upd)`: fold the updates left to right, so a later
write to the same key wins. -/
def dictUpdate (base upd : List (String × JVal)) : List (String × JVal) :=
  upd.foldl (fun acc kv => jset acc kv.1 kv.2) base

/-- One key of one subsequent partial, folded into the accumulator: the body
of the inner `for key, value in result.items()` loop of
`LLMService._merge_extraction_results` (llm_service.py lines 125–133),
branch for branch. -/
def mergeStep (merged : List (String × JVal)) (kv : String × JVal) :
    List (String × JVal) :=
  match jlookup kv.1 merged with
  | none => merged ++ [kv]
  | some mv =>
    match mv, kv.2 with
    | .arr xs, .arr ys => jset merged kv.1 (.arr (xs ++ ys))
    | .obj mkvs, .obj vkvs => jset merged kv.1 (.obj (dictUpdate mkvs vkvs))
    | _, _ =>
      match mv with
      | .null => jset merged kv.1 kv.2
      | .str s => if s = "" then jset merged kv.1 kv.2 else merged
      | _ => merged

/-- Merging one subsequent partial result into the accumulator
(`for key, value in result.items()` over all keys). -/
def mergeInto (merged result : List (String × JVal)) : List (String × JVal) :=
  result.foldl mergeStep merged

/-- `LLMService._merge_extraction_results` (llm_service.py lines 115–135):
start from the first partial and fold the remaining partials in, left to
right.  The empty-input case falls back to a schema skeleton in the source
(`_fallback_extraction`); the claims under study never exercise it, and it is
modelled as the empty object here. -/
def mergeExtractionResults : List (List (String × JVal)) → List (String × JVal)
  | [] => []
  | r :: rs => rs.foldl mergeInto r

example : mergeExtractionResults [[("a", .num 1)]] = [("a", .num 1)] := rfl

example :
    mergeExtractionResults [[("a", .arr [.num 1])], [("a", .arr [.num 2])]] =
      [("a", .arr [.num 1, .num 2])] := rfl

example :
    mergeExtractionResults [[("a", .null)], [("a", .num 5)]] =
      [("a", .num 5)] := rfl

theorem jlookup_jset (m : List (String × JVal)) (k k' : String) (v : JVal) :
    jlookup k (jset m k' v) = if k' = k then some v else jlookup k m := by
  induction m with
  | nil => simp [jset, jlookup]
  | cons kv rest ih =>
    by_cases h1 : kv.1 = k'
    · simp [jset, h1, jlookup]
      by_cases h2 : k' = k <;> simp [h2]
    · simp [jset, h1, jlookup]
      by_cases h2 : kv.1 = k
      · have : ¬ k' = k := fun he => h1 (he ▸ h2)
        simp [h2, this]
      · simp [h2, ih]

theorem jlookup_append (l1 l2 : List (String × JVal)) (k : String) :
    jlookup k (l1 ++ l2) =
      ((jlookup k l1).elim (jlookup k l2) some) := by
  induction l1 with
  | nil => simp [jlookup]
  | cons kv rest ih =>
    by_cases h : kv.1 = k <;> simp [jlookup, h, ih]

theorem jlookup_dictUpdate (upd : List (String × JVal)) (base : List (String × JVal))
    (k : String) :
    jlookup k (dictUpdate base upd) =
      ((jlookup k upd.reverse).elim (jlookup k base) some) := by
  induction upd generalizing base with
  | nil => simp [dictUpdate, jlookup]
  | cons kv rest ih =>
    have hstep : dictUpdate base (kv :: rest) = dictUpdate (jset base kv.1 kv.2) rest := rfl
    rw [hstep, ih]
    rw [List.reverse_cons, jlookup_append]
    cases hres : jlookup k rest.reverse with
    | some v => simp
    | none =>
      simp only [Option.elim]
      rw [jlookup_jset]
      by_cases h : kv.1 = k <;> simp [jlookup, h]

/-- C5: `ExtractionMerger.merge` (`_merge_extraction_results`) folds partial
result maps left-to-right, and per key of each subsequent partial: an absent
key is added; two list values are concatenated; two map values are merged
last-write-wins per key; a null or empty-string accumulator value is
overwritten; otherwise the accumulator's value is kept.  The three spec
examples `merge([{"a":1}]) = {"a":1}`, `merge([{"a":[1]},{"a":[2]}]) =
{"a":[1,2]}` and `merge([{"a":null},{"a":5}]) = {"a":5}` all hold. -/
theorem mergeExtractionResults_spec :
    (mergeExtractionResults [[("a", JVal.num 1)]] = [("a", JVal.num 1)]) ∧
    (mergeExtractionResults [[("a", JVal.arr [JVal.num 1])], [("a", JVal.arr [JVal.num 2])]]
        = [("a", JVal.arr [JVal.num 1, JVal.num 2])]) ∧
    (mergeExtractionResults [[("a", JVal.null)], [("a", JVal.num 5)]]
        = [("a", JVal.num 5)]) ∧
    (∀ r rs, mergeExtractionResults (r :: rs) = rs.foldl mergeInto r) ∧
    (∀ m res, mergeInto m res = res.foldl mergeStep m) ∧
    (∀ merged key value, jlookup key merged = none →
        mergeStep merged (key, value) = merged ++ [(key, value)]) ∧
    (∀ merged key xs ys, jlookup key merged = some (JVal.arr xs) →
        mergeStep merged (key, JVal.arr ys) = jset merged key (JVal.arr (xs ++ ys))) ∧
    (∀ merged key mk vk, jlookup key merged = some (JVal.obj mk) →
        mergeStep merged (key, JVal.obj vk) = jset merged key (JVal.obj (dictUpdate mk vk))) ∧
    (∀ base upd k, jlookup k (dictUpdate base upd) =
        ((jlookup k upd.reverse).elim (jlookup k base) some)) ∧
    (∀ merged key value,
        (jlookup key merged = some JVal.null ∨ jlookup key merged = some (JVal.str "")) →
        mergeStep merged (key, value) = jset merged key value) ∧
    (∀ merged key value mv, jlookup key merged = some mv →
        mv ≠ JVal.null → mv ≠ JVal.str "" →
        (∀ xs ys, ¬(mv = JVal.arr xs ∧ value = JVal.arr ys)) →
        (∀ mk vk, ¬(mv = JVal.obj mk ∧ value = JVal.obj vk)) →
        mergeStep merged (key, value) = merged) := by
  refine ⟨rfl, rfl, rfl, fun r rs => rfl, fun m res => rfl, ?_, ?_, ?_,
    fun base upd k => jlookup_dictUpdate upd base k, ?_, ?_⟩
  · intro merged key value h
    simp [mergeStep, h]
  · intro merged key xs ys h
    simp [mergeStep, h]
  · intro merged key mk vk h
    simp [mergeStep, h]
  · intro merged key value h
    rcases h with h | h <;> cases value <;> simp [mergeStep, h]
  · intro merged key value mv h hnull hstr harr hobj
    cases mv with
    | null => exact absurd rfl hnull
    | num n => cases value <;> simp [mergeStep, h]
    | str s =>
      have hs : ¬ s = "" := fun he => hstr (by rw [he])
      cases value <;> simp [mergeStep, h, hs]
    | arr xs =>
      cases value with
      | arr ys => exact absurd ⟨rfl, rfl⟩ (harr xs ys)
      | null => simp [mergeStep, h]
      | num n => simp [mergeStep, h]
      | str s => simp [mergeStep, h]
      | obj kvs => simp [mergeStep, h]
    | obj mk =>
      cases value with
      | obj vk => exact absurd ⟨rfl, rfl⟩ (hobj mk vk)
      | null => simp [mergeStep, h]
      | num n => simp [mergeStep, h]
      | str s => simp [mergeStep, h]
      | arr xs => simp [mergeStep, h]

/-- Witness for `mergeExtractionResults_spec`: the absent-key rule applied at
the concrete accumulator `{}` and key `"k"`. -/
theorem mergeExtractionResults_spec_witness :
    mergeStep [] ("k", JVal.num 3) = [] ++ [("k", JVal.num 3)] :=
  mergeExtractionResults_spec.2.2.2.2.2.1 [] "k" (JVal.num 3) rfl

/-! ## Processing status and the result store (`services/storage.py`)

`InMemoryStorage` keeps a dict `self.results` in memory and mirrors every
snapshot to a JSON file per transaction id.  Both layers are modelled as
insertion-ordered association lists keyed by transaction id.  Timestamps are
abstracted away (they are opaque to every claim under study). -/

/-- `ProcessingStatus` (models/document.py lines 14–22). -/
inductive PStatus where
  | pending | parsing | structuring | validating | highlighting | storing
  | completed | failed
deriving DecidableEq, Repr

/-- One entry of a `ProcessingResult.processing_log`.  The store-level
`update_status` only ever appends `f"{timestamp}: {message}"` lines
(`updateMessage`); the workflow's in-state log uses the remaining shapes
(simple_workflow.py).  Timestamps are abstracted away. -/
inductive LogEntry where
  | startedProcessing
  | startedParsing | parsedElements (n : Nat)
  | startedStructuring | structuredInto (n : Nat) | enhancedStructure (n : Nat)
  | startedValidation | enhancedValidation (n : Nat) | validatedElements (n : Nat)
  | startedHighlighting | createdHighlights
  | startedStoring | completedProcessing
  | updateMessage (msg : String)
deriving DecidableEq, Repr

/-- The slice of `ProcessingResult` (models/document.py lines 63–73) the
claims under study observe.  `metadata`, `extracted_elements`, `raw_text`,
`structured_data` and the timestamps are carried by the real model but are
not read by any claim; they are omitted from the embedding. -/
structure StoredResult where
  transaction_id : String
  status : PStatus
  error_message : Option String := none
  processing_log : List LogEntry := []
deriving DecidableEq, Repr

/-- The two storage layers of `InMemoryStorage`: the in-memory dict
`self.results` and the JSON files under `storage_dir`. -/
structure Store where
  mem : List (String × StoredResult) := []
  disk : List (String × StoredResult) := []
deriving DecidableEq, Repr

/-- Association-list lookup keyed by transaction id (first match). -/
def slookup (k : String) : List (String × StoredResult) → Option StoredResult
  | [] => none
  | (k', v') :: rest => if k' = k then some v' else slookup k rest

/-- Upsert keyed by transaction id (dict assignment / file overwrite). -/
def sset : List (String × StoredResult) → String → StoredResult →
    List (String × StoredResult)
  | [], k, v => [(k, v)]
  | (k', v') :: rest, k, v =>
    if k' = k then (k, v) :: rest else (k', v') :: sset rest k v

/-- `InMemoryStorage.store_result` (storage.py lines 19–38): write the
snapshot to the in-memory dict and persist it to the file layer.  The
file-write failure path (caught exception, return `False`) is not modelled;
every claim under study runs with a healthy store. -/
def storeResult (st : Store) (r : StoredResult) : Store :=
  { mem := sset st.mem r.transaction_id r,
    disk := sset st.disk r.transaction_id r }

/-- `InMemoryStorage.get_result` (storage.py lines 40–60): memory first, then
the file layer — a file hit is cached back into memory — else `None`. -/
def getResult (st : Store) (tid : String) : Option StoredResult × Store :=
  match slookup tid st.mem with
  | some r => (some r, st)
  | none =>
    match slookup tid st.disk with
    | some r => (some r, { st with mem := sset st.mem tid r })
    | none => (none, st)

/-- `InMemoryStorage.update_status` (storage.py lines 62–79): read the
current snapshot; if present, set the status, append `f"{ts}: {message}"` to
the log when a message is given, store the whole snapshot back, and return
`True`; if absent, return `False`. -/
def updateStatus (st : Store) (tid : String) (status : PStatus)
    (message : Option String) : Bool × Store :=
  match getResult st tid with
  | (some r, st1) =>
    let r' : StoredResult :=
      { r with
        status := status,
        processing_log := r.processing_log ++
          (match message with
           | some m => [LogEntry.updateMessage m]
           | none => []) }
    (true, storeResult st1 r')
  | (none, st1) => (false, st1)

/-- C10: for a transaction id with no stored snapshot — neither in the
in-memory dict nor in the file layer — `update_status` returns `False` and
leaves both layers of the store untouched; it never creates a snapshot for
an unknown id. -/
theorem updateStatus_unknown_id (st : Store) (tid : String) (status : PStatus)
    (message : Option String)
    (hmem : slookup tid st.mem = none) (hdisk : slookup tid st.disk = none) :
    updateStatus st tid status message = (false, st) := by
  unfold updateStatus getResult
  rw [hmem, hdisk]

/-- Witness for `updateStatus_unknown_id`: the empty store and id `"nope"`. -/
theorem updateStatus_unknown_id_witness :
    updateStatus {} "nope" PStatus.failed none = (false, {}) :=
  updateStatus_unknown_id {} "nope" PStatus.failed none rfl rfl

/-! ## The pipeline's parse phase (`agents/simple_workflow.py` lines 40–128)

`process_document` stores an initial PENDING snapshot whose log holds the
single line `"Started processing: <ts>"`, then runs `_parse_step`, which
first calls `update_status(tid, PARSING)` — with no message, so the stored
log gains nothing — and then calls the text extractor.  If the extractor
raises, `_parse_step` sets the in-state error message and status, calls
`update_status(tid, FAILED, str(e))`, and `process_document` returns without
running any further stage.  The extractor is the out-of-scope collaborator
`TextExtractor`; its outcome is a parameter of the model. -/

/-- The initial snapshot stored by `process_document`
(simple_workflow.py lines 64–70). -/
def initialResult (tid : String) : StoredResult :=
  { transaction_id := tid, status := .pending, error_message := none,
    processing_log := [LogEntry.startedProcessing] }

/-- `process_document` up to the end of `_parse_step`, with the extractor's
outcome passed in (`Except.error e` models `processor.process_document`
raising with message `e`; the successful payload is irrelevant to the store
at this phase and is abstracted to the type parameter).  Returns the store
and the in-state status after the phase. -/
def processParsePhase (tid : String) (extract : Except String α) (st0 : Store) :
    Store × PStatus :=
  let st1 := storeResult st0 (initialResult tid)
  let st2 := (updateStatus st1 tid .parsing none).2
  match extract with
  | .error e => ((updateStatus st2 tid .failed (some e)).2, .failed)
  | .ok _ => (st2, .parsing)

/-- Log entries that record the STRUCTURING stage
(`"Started structuring"`, `"Structured into n elements"`,
`"Enhanced structure using LLM"`). -/
def isStructuringEntry : LogEntry → Bool
  | .startedStructuring => true
  | .structuredInto _ => true
  | .enhancedStructure _ => true
  | _ => false

/-- C1 (divergence witness): when the extractor raises `"boom"` on a fresh
transaction, the persisted snapshot has status FAILED and its log contains
no STRUCTURING entry — but its `error_message` field is `None`, not a
non-empty string: `update_status` never writes `error_message` (the failure
text goes into `processing_log` only), and the failed in-state object that
does carry `error_message` is never stored. -/
theorem parseFailure_persisted_snapshot :
    (getResult (processParsePhase "tx1" (Except.error "boom" : Except String Unit) {}).1
        "tx1").1 =
      some { transaction_id := "tx1", status := .failed, error_message := none,
             processing_log := [.startedProcessing, .updateMessage "boom"] } ∧
    ((getResult (processParsePhase "tx1" (Except.error "boom" : Except String Unit) {}).1
        "tx1").1.map
      (fun r => (r.status, r.processing_log.any isStructuringEntry, r.error_message))
        = some (PStatus.failed, false, none)) := by
  exact ⟨rfl, rfl⟩

/-! ## The bounded scheduler (`utils/text_chunking.py` lines 122–159)

`process_chunks_with_rate_limit` wraps every chunk in
`process_with_semaphore` (acquire the semaphore, `await process_func`,
`await asyncio.sleep(delay)`, release), creates all tasks up front, and
collects results with `for completed_task in asyncio.as_completed(tasks):
result = await completed_task; results.append(result)`.

Two views are embedded:
* a functional view of the collection loop over the per-task outcomes in
  completion order (`schedulerRun`) — there is no `try`/`except` anywhere in
  the function, so awaiting a failed task re-raises and the loop, and the
  whole call, aborts;
* a labelled transition system for the semaphore discipline
  (`SchedStep`/`SchedTrace`) in which each task moves pending → running
  (acquire, needs a free permit) → sleeping (work done, pacing delay, permit
  still held) → done (permit released). -/

/-- The `as_completed` collection loop of `process_chunks_with_rate_limit`,
applied to the per-task outcomes in completion order: each successful result
is appended; awaiting a failed task re-raises, so the first failure aborts
the loop and the already-collected results are discarded. -/
def schedulerRun : List (Except ε α) → Except ε (List α)
  | [] => Except.ok []
  | o :: rest =>
    match o with
    | .error e => .error e
    | .ok a =>
      match schedulerRun rest with
      | .error e => .error e
      | .ok others => .ok (a :: others)

/-- The tail of `LLMService.enhance_document_structure`
(llm_service.py lines 325–343): run the chunk workers through the scheduler,
concatenate the per-chunk element lists on success, and — in the enclosing
`except` — return the input elements unchanged if anything raised. -/
def enhanceStructureRun (elements : List α) (outcomes : List (Except ε (List α))) :
    List α :=
  match schedulerRun outcomes with
  | .error _ => elements
  | .ok chunks => chunks.flatten

/-- C3 counterexample: with a single failing worker, the scheduler does not
return a fallback value in the failing worker's place — it aborts the whole
batch by re-raising. -/
theorem schedulerRun_no_fallback :
    schedulerRun [(Except.error "boom" : Except String Nat)] = Except.error "boom" ∧
    ¬ ∃ rs : List Nat,
        schedulerRun [(Except.error "boom" : Except String Nat)] = Except.ok rs := by
  refine ⟨rfl, ?_⟩
  rintro ⟨rs, h⟩
  simp [schedulerRun] at h

/-- C3 amended: a failing worker invocation makes
`process_chunks_with_rate_limit` itself abort — the exception propagates out
of the collection loop, and no fallback is substituted by the scheduler.
Graceful degradation happens one level up: `enhance_document_structure`
catches the propagated failure and returns its input elements unchanged. -/
theorem schedulerRun_aborts_and_caller_degrades
    (outcomes : List (Except ε (List α))) (elements : List α)
    (h : ∃ o ∈ outcomes, ∃ e, o = Except.error e) :
    (∃ e, schedulerRun outcomes = Except.error e) ∧
    enhanceStructureRun elements outcomes = elements := by
  have habort : ∃ e, schedulerRun outcomes = Except.error e := by
    induction outcomes with
    | nil => simp at h
    | cons o rest ih =>
      rcases h with ⟨o', ho', e, he⟩
      rcases List.mem_cons.mp ho' with h1 | h1
      · subst h1; subst he; exact ⟨e, rfl⟩
      · cases o with
        | error e0 => exact ⟨e0, rfl⟩
        | ok a =>
          rcases ih ⟨o', h1, e, he⟩ with ⟨e1, he1⟩
          exact ⟨e1, by simp [schedulerRun, he1]⟩
  rcases habort with ⟨e, he⟩
  exact ⟨⟨e, he⟩, by simp [enhanceStructureRun, he]⟩

/-- Witness for `schedulerRun_aborts_and_caller_degrades`: one successful
and one failing worker; the batch aborts and the caller keeps `[7]`. -/
theorem schedulerRun_aborts_and_caller_degrades_witness :
    (∃ e, schedulerRun [Except.ok [1], (Except.error "boom" : Except String (List Nat))]
        = Except.error e) ∧
    enhanceStructureRun [7] [Except.ok [1], (Except.error "boom" : Except String (List Nat))]
        = [7] :=
  schedulerRun_aborts_and_caller_degrades _ _
    ⟨Except.error "boom", by simp, "boom", rfl⟩

/-- Phase of one `process_with_semaphore` task: created but awaiting the
semaphore; holding a permit and running `process_func`; holding a permit
during the pacing `asyncio.sleep`; finished (permit released). -/
inductive TaskPhase where
  | pending | running | sleeping | done
deriving DecidableEq, Repr

/-- State of one `process_chunks_with_rate_limit` call: the phase of each of
the tasks created up front, and the semaphore's free-permit count. -/
structure SchedState where
  phases : List TaskPhase
  permits : Nat
deriving DecidableEq, Repr

/-- Observable scheduler events: task `i` acquires the semaphore and invokes
the worker; the worker invocation returns (pacing sleep begins, permit still
held); the pacing sleep ends and the permit is released. -/
inductive SchedEvent where
  | start (i : Nat) | finish (i : Nat) | release (i : Nat)
deriving DecidableEq, Repr

/-- Interleaving semantics of the semaphore discipline in
`process_with_semaphore` (text_chunking.py lines 144–149): acquiring needs a
free permit; the pacing delay runs inside `async with`, so the permit is
returned only after it. -/
inductive SchedStep : SchedState → SchedEvent → SchedState → Prop where
  | start (s : SchedState) (i : Nat) :
      s.phases[i]? = some .pending → 0 < s.permits →
      SchedStep s (.start i) ⟨s.phases.set i .running, s.permits - 1⟩
  | finish (s : SchedState) (i : Nat) :
      s.phases[i]? = some .running →
      SchedStep s (.finish i) ⟨s.phases.set i .sleeping, s.permits⟩
  | release (s : SchedState) (i : Nat) :
      s.phases[i]? = some .sleeping →
      SchedStep s (.release i) ⟨s.phases.set i .done, s.permits + 1⟩

/-- A finite execution: the sequence of events from one state to another. -/
inductive SchedTrace : SchedState → List SchedEvent → SchedState → Prop where
  | nil (s : SchedState) : SchedTrace s [] s
  | cons {s s' s'' : SchedState} {e : SchedEvent} {es : List SchedEvent} :
      SchedStep s e s' → SchedTrace s' es s'' → SchedTrace s (e :: es) s''

/-- Initial state: `len(chunks)` tasks created up front, none started, and
`asyncio.Semaphore(max_concurrent)` full. -/
def schedInit (maxConcurrent n : Nat) : SchedState :=
  ⟨List.replicate n .pending, maxConcurrent⟩

/-- Number of tasks currently in a given phase. -/
def countPhase (s : SchedState) (p : TaskPhase) : Nat :=
  s.phases.countP (fun q => q == p)

/-- Number of worker invocations begun along a trace. -/
def numStarts (tr : List SchedEvent) : Nat :=
  tr.countP (fun e => match e with | .start _ => true | _ => false)

/-- Number of permit releases (fully completed slots) along a trace. -/
def numReleases (tr : List SchedEvent) : Nat :=
  tr.countP (fun e => match e with | .release _ => true | _ => false)

theorem countP_set_of_getElem {α : Type} (l : List α) (i : Nat) (a b : α)
    (h : l[i]? = some a) (p : α → Bool) :
    (l.set i b).countP p + (if p a then 1 else 0) =
      l.countP p + (if p b then 1 else 0) := by
  induction l generalizing i with
  | nil => simp at h
  | cons x xs ih =>
    cases i with
    | zero =>
      simp at h
      subst h
      simp [List.countP_cons]
      omega
    | succ j =>
      simp at h
      have := ih j h
      simp [List.countP_cons]
      omega

theorem numStarts_cons_start (i : Nat) (es : List SchedEvent) :
    numStarts (SchedEvent.start i :: es) = numStarts es + 1 := by
  simp [numStarts, List.countP_cons]

theorem numStarts_cons_finish (i : Nat) (es : List SchedEvent) :
    numStarts (SchedEvent.finish i :: es) = numStarts es := by
  simp [numStarts, List.countP_cons]

theorem numStarts_cons_release (i : Nat) (es : List SchedEvent) :
    numStarts (SchedEvent.release i :: es) = numStarts es := by
  simp [numStarts, List.countP_cons]

theorem numReleases_cons_start (i : Nat) (es : List SchedEvent) :
    numReleases (SchedEvent.start i :: es) = numReleases es := by
  simp [numReleases, List.countP_cons]

theorem numReleases_cons_finish (i : Nat) (es : List SchedEvent) :
    numReleases (SchedEvent.finish i :: es) = numReleases es := by
  simp [numReleases, List.countP_cons]

theorem numReleases_cons_release (i : Nat) (es : List SchedEvent) :
    numReleases (SchedEvent.release i :: es) = numReleases es + 1 := by
  simp [numReleases, List.countP_cons]

/-- Phase and permit bookkeeping along a trace, from any start state:
starts grow the ever-started population, releases grow the done population,
and `running + sleeping + permits` is conserved (each acquire converts a
permit into an in-flight task, each release converts back). -/
theorem schedTrace_counts {N : Nat} {s s' : SchedState} {tr : List SchedEvent}
    (h : SchedTrace s tr s') :
    (numStarts tr + (countPhase s .running + countPhase s .sleeping + countPhase s .done)
      = countPhase s' .running + countPhase s' .sleeping + countPhase s' .done) ∧
    (numReleases tr + countPhase s .done = countPhase s' .done) ∧
    (countPhase s .running + countPhase s .sleeping + s.permits = N →
      countPhase s' .running + countPhase s' .sleeping + s'.permits = N) := by
  induction h with
  | nil s => simp [numStarts, numReleases]
  | @cons s s1 s'' e es hstep htr ih =>
    rcases ih with ⟨ih1, ih2, ih3⟩
    cases hstep with
    | start i hget hpos =>
      have hr : (s.phases.set i TaskPhase.running).countP (fun q => q == TaskPhase.running) + 0
          = s.phases.countP (fun q => q == TaskPhase.running) + 1 :=
        countP_set_of_getElem s.phases i TaskPhase.pending TaskPhase.running hget _
      have hs : (s.phases.set i TaskPhase.running).countP (fun q => q == TaskPhase.sleeping) + 0
          = s.phases.countP (fun q => q == TaskPhase.sleeping) + 0 :=
        countP_set_of_getElem s.phases i TaskPhase.pending TaskPhase.running hget _
      have hd : (s.phases.set i TaskPhase.running).countP (fun q => q == TaskPhase.done) + 0
          = s.phases.countP (fun q => q == TaskPhase.done) + 0 :=
        countP_set_of_getElem s.phases i TaskPhase.pending TaskPhase.running hget _
      simp only [countPhase, numStarts_cons_start, numStarts_cons_finish,
        numStarts_cons_release, numReleases_cons_start, numReleases_cons_finish,
        numReleases_cons_release] at ih1 ih2 ih3 ⊢
      refine ⟨by omega, by omega, fun hN => ih3 (by omega)⟩
    | finish i hget =>
      have hr : (s.phases.set i TaskPhase.sleeping).countP (fun q => q == TaskPhase.running) + 1
          = s.phases.countP (fun q => q == TaskPhase.running) + 0 :=
        countP_set_of_getElem s.phases i TaskPhase.running TaskPhase.sleeping hget _
      have hs : (s.phases.set i TaskPhase.sleeping).countP (fun q => q == TaskPhase.sleeping) + 0
          = s.phases.countP (fun q => q == TaskPhase.sleeping) + 1 :=
        countP_set_of_getElem s.phases i TaskPhase.running TaskPhase.sleeping hget _
      have hd : (s.phases.set i TaskPhase.sleeping).countP (fun q => q == TaskPhase.done) + 0
          = s.phases.countP (fun q => q == TaskPhase.done) + 0 :=
        countP_set_of_getElem s.phases i TaskPhase.running TaskPhase.sleeping hget _
      simp only [countPhase, numStarts_cons_start, numStarts_cons_finish,
        numStarts_cons_release, numReleases_cons_start, numReleases_cons_finish,
        numReleases_cons_release] at ih1 ih2 ih3 ⊢
      refine ⟨by omega, by omega, fun hN => ih3 (by omega)⟩
    | release i hget =>
      have hr : (s.phases.set i TaskPhase.done).countP (fun q => q == TaskPhase.running) + 0
          = s.phases.countP (fun q => q == TaskPhase.running) + 0 :=
        countP_set_of_getElem s.phases i TaskPhase.sleeping TaskPhase.done hget _
      have hs : (s.phases.set i TaskPhase.done).countP (fun q => q == TaskPhase.sleeping) + 1
          = s.phases.countP (fun q => q == TaskPhase.sleeping) + 0 :=
        countP_set_of_getElem s.phases i TaskPhase.sleeping TaskPhase.done hget _
      have hd : (s.phases.set i TaskPhase.done).countP (fun q => q == TaskPhase.done) + 0
          = s.phases.countP (fun q => q == TaskPhase.done) + 1 :=
        countP_set_of_getElem s.phases i TaskPhase.sleeping TaskPhase.done hget _
      simp only [countPhase, numStarts_cons_start, numStarts_cons_finish,
        numStarts_cons_release, numReleases_cons_start, numReleases_cons_finish,
        numReleases_cons_release] at ih1 ih2 ih3 ⊢
      refine ⟨by omega, by omega, fun hN => ih3 (by omega)⟩

/-- A trace over a concatenation of event lists passes through a midpoint. -/
theorem schedTrace_append {s s'' : SchedState} {t1 t2 : List SchedEvent}
    (h : SchedTrace s (t1 ++ t2) s'') :
    ∃ mid, SchedTrace s t1 mid ∧ SchedTrace mid t2 s'' := by
  induction t1 generalizing s with
  | nil => exact ⟨s, SchedTrace.nil s, h⟩
  | cons e es ih =>
    cases h with
    | cons hstep htr =>
      rcases ih htr with ⟨mid, h1, h2⟩
      exact ⟨mid, SchedTrace.cons hstep h1, h2⟩

theorem countP_replicate_false {α : Type} (a : α) (n : Nat) (p : α → Bool)
    (h : p a = false) : (List.replicate n a).countP p = 0 := by
  induction n with
  | zero => simp
  | succ k ih => simp [List.replicate_succ, List.countP_cons, ih, h]

/-- C9: in every execution of `process_chunks_with_rate_limit` with
`max_concurrent = N` (modelled by the `SchedStep` transition system for its
semaphore discipline), at most `N` worker invocations are running
simultaneously; and with `N = 1` every execution is serial — along any
prefix of the event trace the number of worker starts never exceeds the
number of fully completed slots by more than one, so a new invocation can
begin only after the previous one has finished and released its slot. -/
theorem processChunks_concurrency_bound (N n : Nat) (tr : List SchedEvent)
    (s : SchedState) (h : SchedTrace (schedInit N n) tr s) :
    countPhase s .running ≤ N ∧
    (N = 1 → ∀ t1 t2, tr = t1 ++ t2 → numStarts t1 ≤ numReleases t1 + 1) := by
  have hz1 : countPhase (schedInit N n) TaskPhase.running = 0 :=
    countP_replicate_false _ _ _ rfl
  have hz2 : countPhase (schedInit N n) TaskPhase.sleeping = 0 :=
    countP_replicate_false _ _ _ rfl
  have hz3 : countPhase (schedInit N n) TaskPhase.done = 0 :=
    countP_replicate_false _ _ _ rfl
  have hzp : (schedInit N n).permits = N := rfl
  constructor
  · obtain ⟨h1, h2, h3⟩ := schedTrace_counts (N := N) h
    have hsum := h3 (by omega)
    omega
  · intro hN1 t1 t2 htr
    subst htr
    obtain ⟨mid, hm1, _hm2⟩ := schedTrace_append h
    obtain ⟨g1, g2, g3⟩ := schedTrace_counts (N := N) hm1
    have gsum := g3 (by omega)
    omega

/-- Witness for `processChunks_concurrency_bound`: the concrete execution
with `max_concurrent = 2` over two chunks in which both workers start, the
first finishes and releases its slot. -/
theorem processChunks_concurrency_bound_witness :
    countPhase ⟨[TaskPhase.done, TaskPhase.running], 1⟩ .running ≤ 2 ∧
    (2 = 1 → ∀ t1 t2,
      ([SchedEvent.start 0, SchedEvent.start 1, SchedEvent.finish 0,
        SchedEvent.release 0] : List SchedEvent) = t1 ++ t2 →
      numStarts t1 ≤ numReleases t1 + 1) := by
  have htr : SchedTrace (schedInit 2 2)
      [SchedEvent.start 0, SchedEvent.start 1, SchedEvent.finish 0, SchedEvent.release 0]
      ⟨[TaskPhase.done, TaskPhase.running], 1⟩ :=
    SchedTrace.cons (SchedStep.start (schedInit 2 2) 0 rfl (by decide))
      (SchedTrace.cons (SchedStep.start _ 1 rfl (by decide))
        (SchedTrace.cons (SchedStep.finish _ 0 rfl)
          (SchedTrace.cons (SchedStep.release _ 0 rfl)
            (SchedTrace.nil _))))
  exact processChunks_concurrency_bound 2 2 _ _ htr

/-! ## The element tree (`agents/simple_workflow.py` lines 130–261)

`_structure_step` groups raw fragments by page (a Python dict, so pages
appear in first-occurrence order), emits one page container per page, then
one child element per text fragment and per table fragment of that page
(`other`-typed fragments are grouped but never emitted).  Raw fragments are
dicts; the fields the step reads are modelled as optional values, absence
meaning the key is missing. -/

/-- `BoundingBox` (models/document.py lines 25–29). -/
structure BBox where
  x : ℚ
  y : ℚ
  width : ℚ
  height : ℚ
deriving DecidableEq, Repr

/-- `VisualGrounding` (models/document.py lines 32–35). -/
structure Grounding where
  page_number : Nat
  bounding_box : BBox
  confidence : ℚ
deriving DecidableEq, Repr

/-- `ExtractedElement.content`: either a raw string or the table dict
`{"rows": ..., "table_id": ...}` built by `_structure_step`.  (A generic
dict without a `rows` key behaves, for validation, like `rows = []`: both
make `content.get('rows')` falsy.) -/
inductive EContent where
  | str (s : String)
  | tbl (rows : List (List String)) (table_id : String)
deriving DecidableEq, Repr

/-- The slice of `ExtractedElement` (models/document.py lines 38–48) the
claims under study observe; the free-form `metadata` map and the
`corrections` record are not read by any claim and are omitted. -/
structure Element where
  id : String
  type : String
  content : EContent
  parent_id : Option String := none
  children_ids : List String := []
  grounding : Grounding
  confidence : ℚ
  validated : Bool := false
deriving DecidableEq, Repr

/-- The `bbox` sub-dict of a raw fragment; each key optional
(`bbox.get('x', default)` …). -/
structure RawBBox where
  x : Option ℚ := none
  y : Option ℚ := none
  width : Option ℚ := none
  height : Option ℚ := none
deriving DecidableEq, Repr

/-- A raw positioned fragment as handed to `_structure_step` by the
extractor: the keys the step reads (`page`, `type`, `text`, `content`,
`table_id`, `bbox`, `confidence`), each optional. -/
structure RawFragment where
  page : Option Nat := none
  type : Option String := none
  text : Option String := none
  content : Option (List (List String)) := none
  table_id : Option String := none
  bbox : Option RawBBox := none
  confidence : Option ℚ := none
deriving DecidableEq, Repr

/-- `element.get('page', 1)`. -/
def pageOf (f : RawFragment) : Nat := f.page.getD 1

/-- `f"page_{page_num}"`. -/
def pageId (p : Nat) : String := "page_" ++ toString p

/-- `f"text_{page_num}_{i}"`. -/
def textIdOf (p i : Nat) : String := "text_" ++ toString p ++ "_" ++ toString i

/-- `f"table_{page_num}_{i}"`. -/
def tableIdOf (p i : Nat) : String := "table_" ++ toString p ++ "_" ++ toString i

/-- One text child (simple_workflow.py lines 174–196). -/
def mkTextElement (p i : Nat) (f : RawFragment) : Element :=
  let bb := f.bbox.getD {}
  { id := textIdOf p i,
    type := "text",
    content := .str (f.text.getD ""),
    parent_id := some (pageId p),
    children_ids := [],
    grounding :=
      { page_number := p,
        bounding_box :=
          { x := bb.x.getD 0, y := bb.y.getD 0,
            width := bb.width.getD 0.1, height := bb.height.getD 0.05 },
        confidence := f.confidence.getD 0.8 },
    confidence := f.confidence.getD 0.8,
    validated := false }

/-- One table child (simple_workflow.py lines 199–224). -/
def mkTableElement (p i : Nat) (f : RawFragment) : Element :=
  let bb := f.bbox.getD {}
  { id := tableIdOf p i,
    type := "table",
    content := .tbl (f.content.getD []) (f.table_id.getD (tableIdOf p i)),
    parent_id := some (pageId p),
    children_ids := [],
    grounding :=
      { page_number := p,
        bounding_box :=
          { x := bb.x.getD 0, y := bb.y.getD 0,
            width := bb.width.getD 0.8, height := bb.height.getD 0.3 },
        confidence := 0.9 },
    confidence := 0.9,
    validated := false }

/-- The text children of one page, in fragment order with their enumeration
index (`for i, text_elem in enumerate(page_elements['text'])`). -/
def pageTexts (frags : List RawFragment) (p : Nat) : List Element :=
  (((frags.filter (fun f => pageOf f == p)).filter
      (fun f => f.type == some "text")).enum).map
    (fun pr => mkTextElement p pr.1 pr.2)

/-- The table children of one page, in fragment order with their index. -/
def pageTables (frags : List RawFragment) (p : Nat) : List Element :=
  (((frags.filter (fun f => pageOf f == p)).filter
      (fun f => f.type == some "table")).enum).map
    (fun pr => mkTableElement p pr.1 pr.2)

/-- The page container (simple_workflow.py lines 158–171), whose
`children_ids` end up holding every child id of the page in emission
order. -/
def mkPageElement (frags : List RawFragment) (p : Nat) : Element :=
  { id := pageId p,
    type := "page",
    content := .str ("Page " ++ toString p),
    parent_id := none,
    children_ids :=
      (pageTexts frags p).map Element.id ++ (pageTables frags p).map Element.id,
    grounding :=
      { page_number := p,
        bounding_box := { x := 0, y := 0, width := 1, height := 1 },
        confidence := 1 },
    confidence := 1,
    validated := false }

/-- Elements emitted for one page: the container first, then its text and
table children, in the order `_structure_step` appends them. -/
def buildPage (frags : List RawFragment) (p : Nat) : List Element :=
  mkPageElement frags p :: (pageTexts frags p ++ pageTables frags p)

/-- Keys of the `pages` dict in first-occurrence order: Python dict
insertion order as fragments are scanned. -/
def firstOccs (l : List Nat) : List Nat :=
  l.foldl (fun acc a => if a ∈ acc then acc else acc ++ [a]) []

/-- The distinct page numbers observed, in first-occurrence order. -/
def distinctPages (frags : List RawFragment) : List Nat :=
  firstOccs (frags.map pageOf)

/-- The locally built element tree of `_structure_step`
(simple_workflow.py lines 140–224): `for page_num, page_elements in
pages.items()`, emitting each page's elements in turn. -/
def buildElementTree (frags : List RawFragment) : List Element :=
  (distinctPages frags).flatMap (buildPage frags)

example :
    buildElementTree [{ type := some "table" }] =
      [mkPageElement [{ type := some "table" }] 1,
       mkTableElement 1 0 { type := some "table" }] := rfl

theorem mem_foldlIns (l : List Nat) (acc : List Nat) (x : Nat) :
    x ∈ l.foldl (fun acc a => if a ∈ acc then acc else acc ++ [a]) acc ↔
      x ∈ acc ∨ x ∈ l := by
  induction l generalizing acc with
  | nil => simp
  | cons a t ih =>
    simp only [List.foldl_cons]
    by_cases h : a ∈ acc
    · rw [if_pos h, ih]
      simp only [List.mem_cons]
      constructor
      · rintro (hx | hx)
        · exact Or.inl hx
        · exact Or.inr (Or.inr hx)
      · rintro (hx | hx | hx)
        · exact Or.inl hx
        · exact Or.inl (hx ▸ h)
        · exact Or.inr hx
    · rw [if_neg h, ih]
      simp only [List.mem_append, List.mem_singleton, List.mem_cons]
      tauto

theorem nodup_foldlIns (l : List Nat) (acc : List Nat) (h : acc.Nodup) :
    (l.foldl (fun acc a => if a ∈ acc then acc else acc ++ [a]) acc).Nodup := by
  induction l generalizing acc with
  | nil => exact h
  | cons a t ih =>
    simp only [List.foldl_cons]
    by_cases ha : a ∈ acc
    · rw [if_pos ha]; exact ih acc h
    · rw [if_neg ha]
      exact ih _ (by simp [List.nodup_append, h, ha])

theorem mem_firstOccs (l : List Nat) (x : Nat) : x ∈ firstOccs l ↔ x ∈ l := by
  have := mem_foldlIns l [] x
  simpa [firstOccs] using this

theorem nodup_firstOccs (l : List Nat) : (firstOccs l).Nodup :=
  nodup_foldlIns l [] List.nodup_nil

theorem countP_flatMap {α β : Type} (l : List α) (f : α → List β) (p : β → Bool) :
    (l.flatMap f).countP p = (l.map (fun a => (f a).countP p)).sum := by
  induction l with
  | nil => simp
  | cons a t ih => simp [List.flatMap_cons, List.countP_append, ih]

theorem sum_indicator (l : List Nat) (hl : l.Nodup) (p : Nat) :
    (l.map (fun q => if q = p then 1 else 0)).sum = if p ∈ l then 1 else 0 := by
  induction l with
  | nil => simp
  | cons a t ih =>
    rcases List.nodup_cons.mp hl with ⟨ha, ht⟩
    simp only [List.map_cons, List.sum_cons, ih ht, List.mem_cons]
    by_cases h : a = p
    · subst h
      simp [ha]
    · have h' : ¬ p = a := fun hh => h hh.symm
      by_cases hp : p ∈ t <;> simp [h, hp, h']

/-- The page-element-for-page-`p` predicate used by the tree invariants. -/
def isPageFor (p : Nat) (e : Element) : Bool :=
  e.type == "page" && e.grounding.page_number == p

theorem type_of_mem_pageTexts {frags : List RawFragment} {p : Nat} {e : Element}
    (h : e ∈ pageTexts frags p) :
    e.type = "text" ∧ e.parent_id = some (pageId p) ∧ e.children_ids = [] ∧
      e.grounding.page_number = p := by
  rcases List.mem_map.mp h with ⟨pr, _, rfl⟩
  exact ⟨rfl, rfl, rfl, rfl⟩

theorem type_of_mem_pageTables {frags : List RawFragment} {p : Nat} {e : Element}
    (h : e ∈ pageTables frags p) :
    e.type = "table" ∧ e.parent_id = some (pageId p) ∧ e.children_ids = [] ∧
      e.grounding.page_number = p ∧ e.confidence = 0.9 ∧
      e.grounding.confidence = 0.9 := by
  rcases List.mem_map.mp h with ⟨pr, _, rfl⟩
  exact ⟨rfl, rfl, rfl, rfl, rfl, rfl⟩

theorem countP_buildPage (frags : List RawFragment) (q p : Nat) :
    (buildPage frags q).countP (isPageFor p) = if q = p then 1 else 0 := by
  unfold buildPage
  rw [List.countP_cons]
  have hz : (pageTexts frags q ++ pageTables frags q).countP (isPageFor p) = 0 := by
    rw [List.countP_eq_zero]
    intro e he
    rcases List.mem_append.mp he with he | he
    · rcases type_of_mem_pageTexts he with ⟨ht, -, -, -⟩
      simp [isPageFor, ht]
    · rcases type_of_mem_pageTables he with ⟨ht, -, -, -, -, -⟩
      simp [isPageFor, ht]
  rw [hz]
  have : isPageFor p (mkPageElement frags q) = (q == p) := by
    simp [isPageFor, mkPageElement]
  rw [this]
  by_cases h : q = p <;> simp [h]

/-- C8: for every raw fragment list, the locally built tree of
`_structure_step` contains exactly one page-type element per distinct page
number observed (with the full-page box `(0,0,1,1)` and confidence `1.0`);
every `children_ids` entry of an element is the id of an element of the same
output whose `parent_id` is that element's id; and every non-`None`
`parent_id` in the output is the id of an element present in the output. -/
theorem elementTree_invariants (frags : List RawFragment) :
    (∀ p : Nat, (buildElementTree frags).countP (isPageFor p)
        = if p ∈ frags.map pageOf then 1 else 0) ∧
    (∀ e ∈ buildElementTree frags, e.type = "page" →
        e.grounding.bounding_box = ⟨0, 0, 1, 1⟩ ∧ e.confidence = 1) ∧
    (∀ e ∈ buildElementTree frags, ∀ c ∈ e.children_ids,
        ∃ e' ∈ buildElementTree frags, e'.id = c ∧ e'.parent_id = some e.id) ∧
    (∀ e ∈ buildElementTree frags, ∀ q, e.parent_id = some q →
        ∃ e' ∈ buildElementTree frags, e'.id = q) := by
  have hmem : ∀ q ∈ distinctPages frags, ∀ x ∈ buildPage frags q,
      x ∈ buildElementTree frags := by
    intro q hq x hx
    exact List.mem_flatMap.mpr ⟨q, hq, hx⟩
  refine ⟨?_, ?_, ?_, ?_⟩
  · intro p
    unfold buildElementTree
    rw [countP_flatMap]
    simp only [countP_buildPage]
    rw [sum_indicator (distinctPages frags)
      (by unfold distinctPages; exact nodup_firstOccs _) p]
    simp [distinctPages, mem_firstOccs]
  · intro e he htype
    rcases List.mem_flatMap.mp he with ⟨q, hq, hbe⟩
    rcases List.mem_cons.mp hbe with rfl | hbe
    · exact ⟨rfl, rfl⟩
    · rcases List.mem_append.mp hbe with hbe | hbe
      · rcases type_of_mem_pageTexts hbe with ⟨ht, -, -, -⟩
        rw [ht] at htype
        simp at htype
      · rcases type_of_mem_pageTables hbe with ⟨ht, -, -, -, -, -⟩
        rw [ht] at htype
        simp at htype
  · intro e he c hc
    rcases List.mem_flatMap.mp he with ⟨q, hq, hbe⟩
    rcases List.mem_cons.mp hbe with rfl | hbe
    · have hchildren :
          (mkPageElement frags q).children_ids =
            (pageTexts frags q).map Element.id ++ (pageTables frags q).map Element.id := rfl
      rw [hchildren] at hc
      rcases List.mem_append.mp hc with hc | hc
      · rcases List.mem_map.mp hc with ⟨child, hchild, rfl⟩
        refine ⟨child, hmem q hq child ?_, rfl, (type_of_mem_pageTexts hchild).2.1⟩
        exact List.mem_cons_of_mem _ (List.mem_append.mpr (Or.inl hchild))
      · rcases List.mem_map.mp hc with ⟨child, hchild, rfl⟩
        refine ⟨child, hmem q hq child ?_, rfl, (type_of_mem_pageTables hchild).2.1⟩
        exact List.mem_cons_of_mem _ (List.mem_append.mpr (Or.inr hchild))
    · rcases List.mem_append.mp hbe with hbe | hbe
      · rw [(type_of_mem_pageTexts hbe).2.2.1] at hc
        simp at hc
      · rw [(type_of_mem_pageTables hbe).2.2.1] at hc
        simp at hc
  · intro e he q' hq'
    rcases List.mem_flatMap.mp he with ⟨q, hq, hbe⟩
    rcases List.mem_cons.mp hbe with rfl | hbe
    · have : (mkPageElement frags q).parent_id = none := rfl
      rw [this] at hq'
      simp at hq'
    · have hpar : e.parent_id = some (pageId q) := by
        rcases List.mem_append.mp hbe with hbe | hbe
        · exact (type_of_mem_pageTexts hbe).2.1
        · exact (type_of_mem_pageTables hbe).2.1
      rw [hpar] at hq'
      have hq'' : q' = pageId q := (Option.some.inj hq').symm
      subst hq''
      exact ⟨mkPageElement frags q, hmem q hq _ (List.mem_cons_self _ _), rfl⟩

/-- Witness for `elementTree_invariants`: on one table fragment, the page
container's sole child id resolves to an element of the output whose parent
is the page. -/
theorem elementTree_invariants_witness :
    ∃ e' ∈ buildElementTree [{ type := some "table" }],
      e'.id = tableIdOf 1 0 ∧
      e'.parent_id = some (mkPageElement [{ type := some "table" }] 1).id :=
  (elementTree_invariants [{ type := some "table" }]).2.2.1
    (mkPageElement [{ type := some "table" }] 1)
    (by
      rw [show buildElementTree [{ type := some "table" }] =
          [mkPageElement [{ type := some "table" }] 1,
           mkTableElement 1 0 { type := some "table" }] from rfl]
      exact List.mem_cons_self _ _)
    (tableIdOf 1 0)
    (by
      rw [show (mkPageElement [{ type := some "table" }] 1).children_ids =
          [tableIdOf 1 0] from rfl]
      exact List.mem_singleton_self _)

/-- C4 counterexample: on a single table fragment with no `bbox` key, the
synthesized table element's bounding box is `(0, 0, 0.8, 0.3)` — the code
defaults `x` and `y` to `0` (`bbox.get('x', 0)`, `bbox.get('y', 0)`), not to
`0.1` — so no table element of the output carries the claimed box
`(0.1, 0.1, 0.8, 0.3)`. -/
theorem tableDefaultBox_counterexample :
    (buildElementTree [{ type := some "table" }]).map (fun e => e.grounding.bounding_box)
        = [{ x := 0, y := 0, width := 1, height := 1 },
           { x := 0, y := 0, width := 0.8, height := 0.3 }] ∧
    ¬ ∃ e ∈ buildElementTree [{ type := some "table" }],
        e.type = "table" ∧
        e.grounding.bounding_box = { x := 0.1, y := 0.1, width := 0.8, height := 0.3 } := by
  constructor
  · rfl
  · rintro ⟨e, he, htype, hbox⟩
    rw [show buildElementTree [{ type := some "table" }] =
        [mkPageElement [{ type := some "table" }] 1,
         mkTableElement 1 0 { type := some "table" }] from rfl] at he
    rcases List.mem_cons.mp he with rfl | he
    · exact absurd htype (by decide)
    · rcases List.mem_cons.mp he with rfl | he
      · have h0 : (0 : ℚ) = 0.1 := congrArg BBox.x hbox
        norm_num at h0
      · simp at he

/-- C4 amended: for every table fragment whose raw `bbox` is absent, the
structuring step synthesizes a table element with the default bounding box
`(x=0, y=0, width=0.8, height=0.3)` — only width and height have the
`0.8`/`0.3` defaults, `x` and `y` default to `0` — and fixed confidence
`0.9` (both on the element and on its grounding). -/
theorem tableDefaults (frags : List RawFragment) (p i : Nat) (f : RawFragment)
    (hf : ((frags.filter (fun g => pageOf g == p)).filter
        (fun g => g.type == some "table"))[i]? = some f)
    (hbb : f.bbox = none) :
    ∃ e ∈ buildElementTree frags,
      e.id = tableIdOf p i ∧
      e.grounding.bounding_box = { x := 0, y := 0, width := 0.8, height := 0.3 } ∧
      e.confidence = 0.9 ∧ e.grounding.confidence = 0.9 ∧ e.type = "table" := by
  have hmemf : f ∈ (frags.filter (fun g => pageOf g == p)).filter
      (fun g => g.type == some "table") := List.getElem?_mem hf
  have hmemf2 : f ∈ frags.filter (fun g => pageOf g == p) :=
    (List.mem_filter.mp hmemf).1
  have hpage : pageOf f = p := by
    have := (List.mem_filter.mp hmemf2).2
    simpa using this
  have hfr : f ∈ frags := (List.mem_filter.mp hmemf2).1
  have hp : p ∈ distinctPages frags := by
    unfold distinctPages
    rw [mem_firstOccs]
    exact List.mem_map.mpr ⟨f, hfr, hpage⟩
  have henum : (i, f) ∈ ((frags.filter (fun g => pageOf g == p)).filter
      (fun g => g.type == some "table")).enum :=
    List.mk_mem_enum_iff_getElem?.mpr hf
  have htbl : mkTableElement p i f ∈ pageTables frags p :=
    List.mem_map.mpr ⟨(i, f), henum, rfl⟩
  refine ⟨mkTableElement p i f,
    List.mem_flatMap.mpr ⟨p, hp,
      List.mem_cons_of_mem _ (List.mem_append.mpr (Or.inr htbl))⟩,
    rfl, ?_, rfl, rfl, rfl⟩
  simp [mkTableElement, hbb]

/-- Witness for `tableDefaults`: the single bbox-less table fragment. -/
theorem tableDefaults_witness :
    ∃ e ∈ buildElementTree [{ type := some "table" }],
      e.id = tableIdOf 1 0 ∧
      e.grounding.bounding_box = { x := 0, y := 0, width := 0.8, height := 0.3 } ∧
      e.confidence = 0.9 ∧ e.grounding.confidence = 0.9 ∧ e.type = "table" :=
  tableDefaults [{ type := some "table" }] 1 0 { type := some "table" } rfl rfl

/-! ## The validation stage (`agents/simple_workflow.py` lines 263–300)

The base rules applied to every element before the optional LLM overlay:
text elements need a non-empty stripped string, table elements need truthy
`rows`, page containers are always valid, anything else keeps its
confidence; then `validated := confidence >= threshold` for every element
(`state.confidence_threshold`, default `0.7`). -/

/-- Python `str.isspace()`, the set `str.strip()` with no argument strips:
the ASCII whitespace `\t\n\x0b\x0c\r` and space, the bidirectional-class
control characters U+001C–U+001F and U+0085, and every Unicode
space-separator (category Zs): U+00A0, U+1680, U+2000–U+200A, U+2028,
U+2029, U+202F, U+205F, U+3000. -/
def pyIsSpace (c : Char) : Bool :=
  let n := c.toNat
  (9 ≤ n && n ≤ 13) || (28 ≤ n && n ≤ 32) ||
    n == 0x85 || n == 0xa0 || n == 0x1680 ||
    (0x2000 ≤ n && n ≤ 0x200a) ||
    n == 0x2028 || n == 0x2029 || n == 0x202f || n == 0x205f || n == 0x3000

example : pyIsSpace '\xa0' = true := rfl

example : pyIsSpace 'a' = false := rfl

/-- `s.strip()`: drop whitespace from both ends. -/
def pyStrip (s : List Char) : List Char :=
  ((s.dropWhile pyIsSpace).reverse.dropWhile pyIsSpace).reverse

/-- The per-element body of `_validate_step`'s basic-validation loop
(simple_workflow.py lines 276–300), branch for branch, followed by
`element.validated = element.confidence >= state.confidence_threshold`. -/
def validateElement (threshold : ℚ) (e : Element) : Element :=
  let conf : ℚ :=
    if e.type = "text" then
      match e.content with
      | .str s => if 0 < (pyStrip s.toList).length then max e.confidence 0.8 else 0.3
      | .tbl _ _ => 0.3
    else if e.type = "table" then
      match e.content with
      | .tbl rows _ => if rows ≠ [] then max e.confidence 0.9 else 0.4
      | .str _ => 0.4
    else if e.type = "page" then 1
    else e.confidence
  { e with confidence := conf, validated := decide (threshold ≤ conf) }

/-- The whole basic-validation pass over the element list. -/
def validateStep (threshold : ℚ) (elems : List Element) : List Element :=
  elems.map (validateElement threshold)

/-- C6: the base validation rules, before any LLM overlay.  A text element
whose content strips to nothing gets confidence `0.3` and `validated=false`
at threshold `0.7`; a text element with non-empty stripped content gets
`max(current, 0.8)`; a table element with non-empty rows gets
`max(current, 0.9)` and `validated=true` at threshold `0.7`; a page element
gets confidence `1.0`; and for every element and every threshold,
`validated` equals `confidence ≥ threshold`. -/
theorem validateStep_base_rules (e : Element) (t : ℚ) :
    (e.type = "text" → ∀ s, e.content = .str s → pyStrip s.toList = [] →
        (validateElement 0.7 e).confidence = 0.3 ∧
        (validateElement 0.7 e).validated = false) ∧
    (e.type = "text" → ∀ s, e.content = .str s → pyStrip s.toList ≠ [] →
        (validateElement t e).confidence = max e.confidence 0.8) ∧
    (e.type = "table" → ∀ rows tid, e.content = .tbl rows tid → rows ≠ [] →
        (validateElement 0.7 e).confidence = max e.confidence 0.9 ∧
        (validateElement 0.7 e).validated = true) ∧
    (e.type = "page" → (validateElement t e).confidence = 1) ∧
    ((validateElement t e).validated
        = decide (t ≤ (validateElement t e).confidence)) ∧
    (validateStep t [e] = [validateElement t e]) := by
  refine ⟨?_, ?_, ?_, ?_, rfl, rfl⟩
  · intro ht s hs hstrip
    have hcond : ¬ 0 < (pyStrip s.data).length := by
      have hstrip' : pyStrip s.data = [] := hstrip
      rw [hstrip']
      simp
    constructor
    · simp [validateElement, ht, hs, hcond]
    · simp [validateElement, ht, hs, hcond]
      norm_num
  · intro ht s hs hstrip
    have hlen : 0 < (pyStrip s.data).length :=
      List.length_pos.mpr (fun hh => hstrip hh)
    simp [validateElement, ht, hs, hlen]
  · intro ht rows tid hc hrows
    have hnt : e.type ≠ "text" := by rw [ht]; decide
    constructor
    · simp [validateElement, ht, hnt, hc, hrows]
    · simp [validateElement, ht, hnt, hc, hrows]
      have : (0.7 : ℚ) ≤ max e.confidence 0.9 :=
        le_trans (by norm_num) (le_max_right _ _)
      simpa using this
  · intro ht
    have hnt : e.type ≠ "text" := by rw [ht]; decide
    have hnb : e.type ≠ "table" := by rw [ht]; decide
    simp [validateElement, ht, hnt, hnb]

/-- A concrete whitespace-only text element (the spec example's
`content = "  "`). -/
def sampleWsElement : Element :=
  { id := "text_1_0",
    type := "text",
    content := .str "  ",
    parent_id := some "page_1",
    children_ids := [],
    grounding :=
      { page_number := 1,
        bounding_box := { x := 0, y := 0, width := 0.1, height := 0.05 },
        confidence := 0.8 },
    confidence := 0.8,
    validated := false }

/-- Witness for `validateStep_base_rules`: the whitespace-only text element
of the spec's example ends at confidence `0.3`, unvalidated. -/
theorem validateStep_base_rules_witness :
    (validateElement 0.7 sampleWsElement).confidence = 0.3 ∧
    (validateElement 0.7 sampleWsElement).validated = false :=
  (validateStep_base_rules sampleWsElement 0.7).1 rfl "  " rfl rfl

/-! ## LLM structure enhancement fallback
(`agents/simple_workflow.py` lines 229–251)

After building the local tree, `_structure_step` calls
`llm_service.enhance_document_structure` inside a `try`; a raised error
(`except llm_error`) keeps the local tree.  A returned value replaces the
tree only when it is a non-empty list all of whose entries convert to
`ExtractedElement` (a conversion error is caught by
`except conversion_error`, keeping the local tree), and the converted list
is non-empty. -/

/-- The enhancement-overlay tail of `_structure_step`: `enh` is the outcome
of the `enhance_document_structure` call (`error` models a raised
exception), `convert` models `ExtractedElement(**elem)` — pydantic schema
validation, which may fail on any entry. -/
def applyEnhancement {α : Type} (convert : α → Except Unit Element)
    (localElems : List Element) (enh : Except Unit (List α)) : List Element :=
  match enh with
  | .error _ => localElems
  | .ok es =>
    if es.isEmpty then localElems
    else
      match es.mapM convert with
      | .error _ => localElems
      | .ok news => if news.isEmpty then localElems else news

/-- C7: the locally built tree survives every enhancement failure mode — a
raised service error, an empty result, or an element that fails schema
conversion — and is replaced only when enhancement yields a non-empty list
that converts in full to schema-valid elements. -/
theorem enhancement_keeps_local_tree {α : Type} (convert : α → Except Unit Element)
    (localElems : List Element) (enh : Except Unit (List α)) :
    (∀ err, enh = .error err →
        applyEnhancement convert localElems enh = localElems) ∧
    (enh = .ok [] → applyEnhancement convert localElems enh = localElems) ∧
    (∀ es err, enh = .ok es → es.mapM convert = .error err →
        applyEnhancement convert localElems enh = localElems) ∧
    (applyEnhancement convert localElems enh ≠ localElems →
        ∃ es news, enh = .ok es ∧ es ≠ [] ∧ es.mapM convert = .ok news ∧
          news ≠ [] ∧ applyEnhancement convert localElems enh = news) := by
  refine ⟨?_, ?_, ?_, ?_⟩
  · rintro err rfl
    rfl
  · rintro rfl
    rfl
  · rintro es err rfl hconv
    have hconv' : List.mapM.loop convert es [] = Except.error err := hconv
    cases hes : es.isEmpty with
    | true => simp [applyEnhancement, hes]
    | false => simp [applyEnhancement, hes, hconv']
  · intro hne
    cases enh with
    | error err => exact absurd rfl hne
    | ok es =>
      cases hes : es.isEmpty with
      | true =>
        exact absurd (by simp [applyEnhancement, hes]) hne
      | false =>
        cases hconv : es.mapM convert with
        | error err =>
          have hconv' : List.mapM.loop convert es [] = Except.error err := hconv
          exact absurd (by simp [applyEnhancement, hes, hconv']) hne
        | ok news =>
          have hconv' : List.mapM.loop convert es [] = Except.ok news := hconv
          cases hnews : news.isEmpty with
          | true =>
            have hnews' : news = [] := by simpa using hnews
            exact absurd (by simp [applyEnhancement, hes, hconv', hnews']) hne
          | false =>
            have hnews' : news ≠ [] := by simpa using hnews
            refine ⟨es, news, rfl, ?_, hconv, hnews', ?_⟩
            · intro hh
              rw [hh] at hes
              simp at hes
            · simp [applyEnhancement, hes, hconv', hnews']

/-- Witness for `enhancement_keeps_local_tree`: a raised enhancement error
leaves the concrete one-element local tree unchanged. -/
theorem enhancement_keeps_local_tree_witness :
    applyEnhancement Except.ok [sampleWsElement]
        (Except.error () : Except Unit (List Element)) = [sampleWsElement] :=
  (enhancement_keeps_local_tree Except.ok [sampleWsElement] (Except.error ())).1 () rfl

/-! ## The text chunker (`utils/text_chunking.py` lines 13–73)

`chunk_text` is embedded over `List Char` (Python `str`).  It splits on
`"\n\n"`, accumulates paragraphs into `current_chunk` re-joined with
`"\n\n"`, splits an oversized paragraph on `". "` (re-joining sentences with
`". "`), and slices an oversized sentence into `max_chunk_size`-character
pieces.  Empty accumulated chunks are silently skipped
(`if current_chunk:`). -/

/-- The paragraph joiner `"\n\n"`. -/
def nlnl : List Char := ['\n', '\n']

/-- The sentence joiner `". "`. -/
def dotSp : List Char := ['.', ' ']

/-- Python `s.split(ab)` for a two-character separator `ab`: leftmost,
non-overlapping matches; empty pieces kept; `"".split(ab) = [""]`. -/
def splitSeq2 (a b : Char) : List Char → List (List Char)
  | [] => [[]]
  | [c] => [[c]]
  | c :: d :: rest =>
    if c = a ∧ d = b then [] :: splitSeq2 a b rest
    else
      match splitSeq2 a b (d :: rest) with
      | [] => [[c]]
      | p :: ps => (c :: p) :: ps

/-- Python `sep.join(pieces)`. -/
def joinWith (sep : List Char) : List (List Char) → List Char
  | [] => []
  | [x] => x
  | x :: xs => x ++ sep ++ joinWith sep xs

theorem joinWith_cons_cons (sep x : List Char) (y : List Char) (ys : List (List Char)) :
    joinWith sep (x :: y :: ys) = x ++ sep ++ joinWith sep (y :: ys) := rfl

theorem joinWith_cons_head (sep : List Char) (c : Char) (p : List Char)
    (ps : List (List Char)) :
    joinWith sep ((c :: p) :: ps) = c :: joinWith sep (p :: ps) := by
  cases ps with
  | nil => rfl
  | cons q qs => simp [joinWith_cons_cons]

theorem splitSeq2_ne_nil (a b : Char) (s : List Char) : splitSeq2 a b s ≠ [] := by
  match s with
  | [] => simp [splitSeq2]
  | [c] => simp [splitSeq2]
  | c :: d :: rest =>
    rw [splitSeq2]
    by_cases h : c = a ∧ d = b
    · simp [h]
    · simp only [if_neg h]
      cases hs : splitSeq2 a b (d :: rest) with
      | nil => simp
      | cons p ps => simp

theorem joinWith_splitSeq2 (a b : Char) (s : List Char) :
    joinWith [a, b] (splitSeq2 a b s) = s := by
  induction s using splitSeq2.induct a b with
  | case1 => rfl
  | case2 c => rfl
  | case3 c d rest h ih =>
    obtain ⟨rfl, rfl⟩ := h
    rw [splitSeq2, if_pos ⟨rfl, rfl⟩]
    cases hs : splitSeq2 c d rest with
    | nil => exact absurd hs (splitSeq2_ne_nil _ _ _)
    | cons p ps =>
      rw [hs] at ih
      rw [joinWith_cons_cons]
      simp [ih]
  | case4 c d rest h hnil ih => exact absurd hnil (splitSeq2_ne_nil _ _ _)
  | case5 c d rest h p ps hs ih =>
    rw [splitSeq2, if_neg h, hs]
    rw [hs] at ih
    show joinWith [a, b] ((c :: p) :: ps) = c :: d :: rest
    rw [joinWith_cons_head, ih]

/-- `for i in range(0, len(sentence), max): chunks.append(sentence[i:i+max])`
(text_chunking.py lines 52–53).  Python raises on step `0`; the `m = 0` arm
is never reached under the claims' positive `max_chunk_size`. -/
def charChunks (m : Nat) (s : List Char) : List (List Char) :=
  if hs : s = [] then []
  else if m = 0 then [s]
  else s.take m :: charChunks m (s.drop m)
termination_by s.length
decreasing_by
  rw [List.length_drop]
  have hpos : 0 < s.length := List.length_pos.mpr hs
  omega

theorem charChunks_flatten (m : Nat) (s : List Char) :
    (charChunks m s).flatten = s := by
  induction s using charChunks.induct m with
  | case1 => rw [charChunks]; simp
  | case2 s hs hm => rw [charChunks, dif_neg hs, if_pos hm]; simp
  | case3 s hs hm ih =>
    rw [charChunks, dif_neg hs, if_neg hm]
    simp [ih]

theorem charChunks_length_le (m : Nat) (s : List Char) (c : List Char)
    (hc : c ∈ charChunks m s) (hm : 1 ≤ m) : c.length ≤ m := by
  induction s using charChunks.induct m with
  | case1 =>
    rw [charChunks] at hc
    simp at hc
  | case2 s hs hm0 => omega
  | case3 s hs hm0 ih =>
    rw [charChunks, dif_neg hs, if_neg hm0] at hc
    rcases List.mem_cons.mp hc with rfl | hc
    · simpa using Nat.min_le_left m s.length
    · exact ih hc

/-- The joiner-sequence predicate: a gap dropped between chunks is a
concatenation of `"\n\n"` and `". "` joiners. -/
inductive IsJoinerSeq : List Char → Prop where
  | nil : IsJoinerSeq []
  | para (g : List Char) : IsJoinerSeq g → IsJoinerSeq ('\n' :: '\n' :: g)
  | sent (g : List Char) : IsJoinerSeq g → IsJoinerSeq ('.' :: ' ' :: g)

theorem IsJoinerSeq.append {g1 g2 : List Char}
    (h1 : IsJoinerSeq g1) (h2 : IsJoinerSeq g2) : IsJoinerSeq (g1 ++ g2) := by
  induction h1 with
  | nil => simpa using h2
  | para g hg ih => exact IsJoinerSeq.para _ ih
  | sent g hg ih => exact IsJoinerSeq.sent _ ih

theorem isJoinerSeq_nlnl : IsJoinerSeq nlnl := IsJoinerSeq.para [] IsJoinerSeq.nil

theorem isJoinerSeq_dotSp : IsJoinerSeq dotSp := IsJoinerSeq.sent [] IsJoinerSeq.nil

/-- `interleave gaps chunks = g₀ ++ c₀ ++ g₁ ++ c₁ ++ … ++ gₙ` (one more gap
than chunks; extra material in either list is ignored). -/
def interleave : List (List Char) → List (List Char) → List Char
  | [], _ => []
  | g :: _, [] => g
  | g :: gs, c :: cs => g ++ (c ++ interleave gs cs)

theorem interleave_append_one (chunks : List (List Char)) :
    ∀ (gaps : List (List Char)) (c g' : List Char),
    gaps.length = chunks.length + 1 →
    interleave (gaps ++ [g']) (chunks ++ [c])
      = interleave gaps chunks ++ (c ++ g') := by
  induction chunks with
  | nil =>
    intro gaps c g' h
    match gaps with
    | [g] => simp [interleave]
  | cons c0 cs ih =>
    intro gaps c g' h
    match gaps with
    | g0 :: gs =>
      have hlen : gs.length = cs.length + 1 := by
        simpa using h
      show g0 ++ (c0 ++ interleave (gs ++ [g']) (cs ++ [c]))
        = (g0 ++ (c0 ++ interleave gs cs)) ++ (c ++ g')
      rw [ih gs c g' hlen]
      simp [List.append_assoc]

/-- Extend the final gap of a gap list. -/
def extendLast (j : List Char) : List (List Char) → List (List Char)
  | [] => [j]
  | [g] => [g ++ j]
  | g :: gs => g :: extendLast j gs

theorem extendLast_length (j : List Char) :
    ∀ gaps : List (List Char), gaps ≠ [] → (extendLast j gaps).length = gaps.length
  | [], h => absurd rfl h
  | [g], _ => rfl
  | g :: g2 :: gs, _ => by
    have := extendLast_length j (g2 :: gs) (by simp)
    simp only [extendLast, List.length_cons]
    rw [show extendLast j (g2 :: gs) = (extendLast j (g2 :: gs)) from rfl] at this ⊢
    simp at this ⊢
    omega

theorem extendLast_joiner (j : List Char) (hj : IsJoinerSeq j) :
    ∀ gaps : List (List Char), (∀ g ∈ gaps, IsJoinerSeq g) →
    ∀ g ∈ extendLast j gaps, IsJoinerSeq g
  | [], hg => by
    intro g hgmem
    simp [extendLast] at hgmem
    subst hgmem
    exact hj
  | [g0], hg => by
    intro g hgmem
    simp [extendLast] at hgmem
    subst hgmem
    exact (hg g0 (by simp)).append hj
  | g0 :: g1 :: gs, hg => by
    intro g hgmem
    rw [show extendLast j (g0 :: g1 :: gs) = g0 :: extendLast j (g1 :: gs) from rfl]
      at hgmem
    rcases List.mem_cons.mp hgmem with rfl | hgmem
    · exact hg g (by simp)
    · exact extendLast_joiner j hj (g1 :: gs)
        (fun g' hg' => hg g' (List.mem_cons_of_mem _ hg')) g hgmem

theorem interleave_extendLast (j : List Char) :
    ∀ (chunks gaps : List (List Char)), gaps.length = chunks.length + 1 →
    interleave (extendLast j gaps) chunks = interleave gaps chunks ++ j := by
  intro chunks
  induction chunks with
  | nil =>
    intro gaps h
    match gaps with
    | [g] => simp [extendLast, interleave]
  | cons c0 cs ih =>
    intro gaps h
    match gaps with
    | g0 :: gs =>
      have hlen : gs.length = cs.length + 1 := by simpa using h
      have hne : gs ≠ [] := by
        intro hh
        rw [hh] at hlen
        simp at hlen
      have hext : extendLast j (g0 :: gs) = g0 :: extendLast j gs := by
        match gs, hne with
        | g1 :: gs', _ => rfl
      rw [hext]
      show g0 ++ (c0 ++ interleave (extendLast j gs) cs)
        = (g0 ++ (c0 ++ interleave gs cs)) ++ j
      rw [ih gs hlen]
      simp [List.append_assoc]

theorem interleave_reps (cs : List (List Char)) :
    ∀ g : List Char,
    interleave (g :: List.replicate cs.length []) cs = g ++ cs.flatten := by
  induction cs with
  | nil => intro g; simp [interleave]
  | cons c cs' ih =>
    intro g
    show g ++ (c ++ interleave ([] :: List.replicate cs'.length []) cs')
      = g ++ (c :: cs').flatten
    rw [ih []]
    simp

theorem interleave_append_block (chunks : List (List Char)) :
    ∀ (gaps cs : List (List Char)),
    gaps.length = chunks.length + 1 →
    interleave (gaps ++ List.replicate cs.length []) (chunks ++ cs)
      = interleave gaps chunks ++ cs.flatten := by
  induction chunks with
  | nil =>
    intro gaps cs h
    match gaps with
    | [g] =>
      simp only [List.nil_append]
      exact interleave_reps cs g
  | cons c0 cs0 ih =>
    intro gaps cs h
    match gaps with
    | g0 :: gs =>
      have hlen : gs.length = cs0.length + 1 := by simpa using h
      show g0 ++ (c0 ++ interleave (gs ++ List.replicate cs.length []) (cs0 ++ cs))
        = (g0 ++ (c0 ++ interleave gs cs0)) ++ cs.flatten
      rw [ih gs cs hlen]
      simp [List.append_assoc]

/-- The body of the inner `for sentence in sentences` loop of `chunk_text`
(text_chunking.py lines 44–60), on the state
`(chunks, current_chunk)`. -/
def stepSent (m : Nat) (st : List (List Char) × List Char) (sent : List Char) :
    List (List Char) × List Char :=
  if st.2.length + sent.length + 2 > m then
    let chunks1 := if st.2 = [] then st.1 else st.1 ++ [st.2]
    if sent.length > m then
      (chunks1 ++ charChunks m sent, [])
    else
      (chunks1, sent)
  else
    if st.2 = [] then (st.1, sent) else (st.1, st.2 ++ dotSp ++ sent)

/-- The body of the outer `for paragraph in paragraphs` loop of `chunk_text`
(text_chunking.py lines 33–67). -/
def stepPara (m : Nat) (st : List (List Char) × List Char) (para : List Char) :
    List (List Char) × List Char :=
  if st.2.length + para.length + 2 > m then
    let chunks1 := if st.2 = [] then st.1 else st.1 ++ [st.2]
    if para.length > m then
      (splitSeq2 '.' ' ' para).foldl (stepSent m) (chunks1, [])
    else
      (chunks1, para)
  else
    if st.2 = [] then (st.1, para) else (st.1, st.2 ++ nlnl ++ para)

/-- `chunk_text(text, max_chunk_size)` (text_chunking.py lines 13–73). -/
def chunkText (text : List Char) (m : Nat) : List (List Char) :=
  if text.length ≤ m then [text]
  else
    let st := (splitSeq2 '\n' '\n' text).foldl (stepPara m) ([], [])
    if st.2 = [] then st.1 else st.1 ++ [st.2]

example :
    chunkText ('a' :: 'b' :: '\n' :: '\n' :: 'c' :: 'd' ::[]) 3 = [['a','b'], ['c','d']] := rfl

example :
    chunkText ('\n' :: '\n' :: 'X' :: 'X' :: 'X' :: 'X' :: 'X' ::[]) 5 = [['X','X','X','X','X']] := rfl

/-- The joint invariant carried through the chunker's loops: the consumed
input `t` is the interleaving of the chunks emitted so far with joiner-only
gaps, followed by the current accumulator, and every emitted chunk and the
accumulator respect the size bound. -/
def RelSB (m : Nat) (t : List Char) (st : List (List Char) × List Char) : Prop :=
  (∃ gaps, (∀ g ∈ gaps, IsJoinerSeq g) ∧ gaps.length = st.1.length + 1 ∧
    interleave gaps st.1 ++ st.2 = t) ∧
  (∀ c ∈ st.1, c.length ≤ m) ∧ st.2.length ≤ m

theorem relSB_init (m : Nat) : RelSB m [] ([], []) := by
  refine ⟨⟨[[]], ?_, rfl, rfl⟩, ?_, ?_⟩
  · intro g hg
    simp at hg
    subst hg
    exact IsJoinerSeq.nil
  · intro c hc
    simp at hc
  · simp

theorem relSB_flush (m : Nat) (t : List Char) (chunks : List (List Char))
    (cur : List Char) (h : RelSB m t (chunks, cur)) :
    RelSB m t ((if cur = [] then chunks else chunks ++ [cur]), []) := by
  rcases h with ⟨⟨gaps, hg, hglen, hinter⟩, hsb1, hsb2⟩
  by_cases hcur : cur = []
  · subst hcur
    rw [if_pos rfl]
    exact ⟨⟨gaps, hg, hglen, hinter⟩, hsb1, by simp⟩
  · rw [if_neg hcur]
    refine ⟨⟨gaps ++ [[]], ?_, ?_, ?_⟩, ?_, by simp⟩
    · intro g hgmem
      rcases List.mem_append.mp hgmem with hgm | hgm
      · exact hg g hgm
      · simp at hgm
        subst hgm
        exact IsJoinerSeq.nil
    · simp [hglen]
    · rw [interleave_append_one chunks gaps cur [] hglen]
      simpa using hinter
    · intro c hc
      rcases List.mem_append.mp hc with hc | hc
      · exact hsb1 c hc
      · simp at hc
        subst hc
        exact hsb2

/-- After a flush the accumulator is empty and the consumed text is exactly
the interleaving; extending the final gap by a joiner re-establishes the
invariant for text extended by that joiner. -/
theorem relSB_gap (m : Nat) (t : List Char) (chunks : List (List Char))
    (j : List Char) (hj : IsJoinerSeq j) (h : RelSB m t (chunks, [])) :
    RelSB m (t ++ j) (chunks, []) := by
  rcases h with ⟨⟨gaps, hg, hglen, hinter⟩, hsb1, hsb2⟩
  have hne : gaps ≠ [] := by
    intro hh
    rw [hh] at hglen
    simp at hglen
  refine ⟨⟨extendLast j gaps, extendLast_joiner j hj gaps hg,
    by rw [extendLast_length j gaps hne, hglen], ?_⟩, hsb1, hsb2⟩
  rw [interleave_extendLast j chunks gaps hglen]
  simp only [List.append_nil] at hinter
  simp [hinter]

theorem stepSent_rel (m : Nat) (hm : 1 ≤ m) (chunks : List (List Char))
    (cur t pre sent : List Char)
    (h : RelSB m t (chunks, cur)) (hpre : IsJoinerSeq pre)
    (hcur : cur ≠ [] → pre = dotSp) :
    RelSB m (t ++ pre ++ sent) (stepSent m (chunks, cur) sent) := by
  simp only [stepSent]
  by_cases hov : cur.length + sent.length + 2 > m
  · rw [if_pos hov]
    have hflush : RelSB m t ((if cur = [] then chunks else chunks ++ [cur]), []) :=
      relSB_flush m t chunks cur h
    have hgap : RelSB m (t ++ pre)
        ((if cur = [] then chunks else chunks ++ [cur]), []) :=
      relSB_gap m (t := t) _ pre hpre hflush
    rcases hgap with ⟨⟨gaps, hg, hglen, hinter⟩, hsb1, -⟩
    dsimp only at hglen hinter hsb1
    simp only [List.append_nil] at hinter
    by_cases hbig : sent.length > m
    · rw [if_pos hbig]
      refine ⟨⟨gaps ++ List.replicate (charChunks m sent).length [], ?_, ?_, ?_⟩,
        ?_, by simp⟩
      · intro g hgmem
        rcases List.mem_append.mp hgmem with hgm | hgm
        · exact hg g hgm
        · rw [List.eq_of_mem_replicate hgm]
          exact IsJoinerSeq.nil
      · dsimp only
        simp only [List.length_append, List.length_replicate]
        omega
      · dsimp only
        rw [interleave_append_block _ gaps (charChunks m sent) hglen,
          charChunks_flatten, hinter]
        simp [List.append_assoc]
      · dsimp only
        intro c hc
        rcases List.mem_append.mp hc with hc | hc
        · exact hsb1 c hc
        · exact charChunks_length_le m sent c hc hm
    · rw [if_neg hbig]
      refine ⟨⟨gaps, hg, ?_, ?_⟩, ?_, by dsimp only; omega⟩
      · dsimp only
        exact hglen
      · dsimp only
        rw [hinter]
      · dsimp only
        exact hsb1
  · rw [if_neg hov]
    by_cases hcure : cur = []
    · rw [if_pos hcure]
      subst hcure
      have hgap := relSB_gap m t chunks pre hpre h
      rcases hgap with ⟨⟨gaps, hg, hglen, hinter⟩, hsb1, -⟩
      dsimp only at hglen hinter hsb1
      simp only [List.append_nil] at hinter
      refine ⟨⟨gaps, hg, ?_, ?_⟩, ?_, ?_⟩
      · dsimp only
        exact hglen
      · dsimp only
        rw [hinter]
      · dsimp only
        exact hsb1
      · dsimp only
        simp only [List.length_nil] at hov
        omega
    · rw [if_neg hcure]
      have hpre2 : pre = dotSp := hcur hcure
      subst hpre2
      rcases h with ⟨⟨gaps, hg, hglen, hinter⟩, hsb1, hsb2⟩
      dsimp only at hglen hinter hsb1 hsb2
      refine ⟨⟨gaps, hg, ?_, ?_⟩, ?_, ?_⟩
      · dsimp only
        exact hglen
      · dsimp only
        rw [← hinter]
        simp [List.append_assoc]
      · dsimp only
        exact hsb1
      · dsimp only
        simp only [List.length_append, dotSp, List.length_cons, List.length_nil]
        omega

theorem foldSent_rel (m : Nat) (hm : 1 ≤ m) :
    ∀ (sents : List (List Char)) (chunks : List (List Char)) (cur t pre : List Char),
    sents ≠ [] → RelSB m t (chunks, cur) → IsJoinerSeq pre →
    (cur ≠ [] → pre = dotSp) →
    RelSB m (t ++ pre ++ joinWith dotSp sents)
      (sents.foldl (stepSent m) (chunks, cur))
  | [], _, _, _, _, hne, _, _, _ => absurd rfl hne
  | [s], chunks, cur, t, pre, _, h, hpre, hcur => by
    have h1 := stepSent_rel m hm chunks cur t pre s h hpre hcur
    simpa [joinWith] using h1
  | s :: s2 :: rest, chunks, cur, t, pre, _, h, hpre, hcur => by
    have h1 := stepSent_rel m hm chunks cur t pre s h hpre hcur
    rcases hst : stepSent m (chunks, cur) s with ⟨chunks2, cur2⟩
    rw [hst] at h1
    have h2 := foldSent_rel m hm (s2 :: rest) chunks2 cur2 (t ++ pre ++ s) dotSp
      (by simp) h1 isJoinerSeq_dotSp (fun _ => rfl)
    rw [List.foldl_cons, hst]
    rw [joinWith_cons_cons]
    have hassoc : t ++ pre ++ (s ++ dotSp ++ joinWith dotSp (s2 :: rest))
        = t ++ pre ++ s ++ dotSp ++ joinWith dotSp (s2 :: rest) := by
      simp [List.append_assoc]
    rw [hassoc]
    exact h2

theorem stepPara_rel (m : Nat) (hm : 1 ≤ m) (chunks : List (List Char))
    (cur t pre para : List Char)
    (h : RelSB m t (chunks, cur)) (hpre : IsJoinerSeq pre)
    (hcur : cur ≠ [] → pre = nlnl) :
    RelSB m (t ++ pre ++ para) (stepPara m (chunks, cur) para) := by
  simp only [stepPara]
  by_cases hov : cur.length + para.length + 2 > m
  · rw [if_pos hov]
    have hflush : RelSB m t ((if cur = [] then chunks else chunks ++ [cur]), []) :=
      relSB_flush m t chunks cur h
    by_cases hbig : para.length > m
    · rw [if_pos hbig]
      have hsents := foldSent_rel m hm (splitSeq2 '.' ' ' para)
        (if cur = [] then chunks else chunks ++ [cur]) [] t pre
        (splitSeq2_ne_nil _ _ _) hflush hpre (fun hh => absurd rfl hh)
      rw [show joinWith dotSp (splitSeq2 '.' ' ' para) = para from
        joinWith_splitSeq2 '.' ' ' para] at hsents
      exact hsents
    · rw [if_neg hbig]
      have hgap : RelSB m (t ++ pre)
          ((if cur = [] then chunks else chunks ++ [cur]), []) :=
        relSB_gap m (t := t) _ pre hpre hflush
      rcases hgap with ⟨⟨gaps, hg, hglen, hinter⟩, hsb1, -⟩
      dsimp only at hglen hinter hsb1
      simp only [List.append_nil] at hinter
      refine ⟨⟨gaps, hg, ?_, ?_⟩, ?_, by dsimp only; omega⟩
      · dsimp only
        exact hglen
      · dsimp only
        rw [hinter]
      · dsimp only
        exact hsb1
  · rw [if_neg hov]
    by_cases hcure : cur = []
    · rw [if_pos hcure]
      subst hcure
      have hgap := relSB_gap m t chunks pre hpre h
      rcases hgap with ⟨⟨gaps, hg, hglen, hinter⟩, hsb1, -⟩
      dsimp only at hglen hinter hsb1
      simp only [List.append_nil] at hinter
      refine ⟨⟨gaps, hg, ?_, ?_⟩, ?_, ?_⟩
      · dsimp only
        exact hglen
      · dsimp only
        rw [hinter]
      · dsimp only
        exact hsb1
      · dsimp only
        simp only [List.length_nil] at hov
        omega
    · rw [if_neg hcure]
      have hpre2 : pre = nlnl := hcur hcure
      subst hpre2
      rcases h with ⟨⟨gaps, hg, hglen, hinter⟩, hsb1, hsb2⟩
      dsimp only at hglen hinter hsb1 hsb2
      refine ⟨⟨gaps, hg, ?_, ?_⟩, ?_, ?_⟩
      · dsimp only
        exact hglen
      · dsimp only
        rw [← hinter]
        simp [List.append_assoc]
      · dsimp only
        exact hsb1
      · dsimp only
        simp only [List.length_append, nlnl, List.length_cons, List.length_nil]
        omega

theorem foldPara_rel (m : Nat) (hm : 1 ≤ m) :
    ∀ (paras : List (List Char)) (chunks : List (List Char)) (cur t pre : List Char),
    paras ≠ [] → RelSB m t (chunks, cur) → IsJoinerSeq pre →
    (cur ≠ [] → pre = nlnl) →
    RelSB m (t ++ pre ++ joinWith nlnl paras)
      (paras.foldl (stepPara m) (chunks, cur))
  | [], _, _, _, _, hne, _, _, _ => absurd rfl hne
  | [s], chunks, cur, t, pre, _, h, hpre, hcur => by
    have h1 := stepPara_rel m hm chunks cur t pre s h hpre hcur
    simpa [joinWith] using h1
  | s :: s2 :: rest, chunks, cur, t, pre, _, h, hpre, hcur => by
    have h1 := stepPara_rel m hm chunks cur t pre s h hpre hcur
    rcases hst : stepPara m (chunks, cur) s with ⟨chunks2, cur2⟩
    rw [hst] at h1
    have h2 := foldPara_rel m hm (s2 :: rest) chunks2 cur2 (t ++ pre ++ s) nlnl
      (by simp) h1 isJoinerSeq_nlnl (fun _ => rfl)
    rw [List.foldl_cons, hst]
    rw [joinWith_cons_cons]
    have hassoc : t ++ pre ++ (s ++ nlnl ++ joinWith nlnl (s2 :: rest))
        = t ++ pre ++ s ++ nlnl ++ joinWith nlnl (s2 :: rest) := by
      simp [List.append_assoc]
    rw [hassoc]
    exact h2

theorem relSB_finish (m : Nat) (text : List Char)
    (st : List (List Char) × List Char) (h : RelSB m text st) :
    (∀ c ∈ (if st.2 = [] then st.1 else st.1 ++ [st.2]), c.length ≤ m) ∧
    ∃ gaps, (∀ g ∈ gaps, IsJoinerSeq g) ∧
      gaps.length = (if st.2 = [] then st.1 else st.1 ++ [st.2]).length + 1 ∧
      interleave gaps (if st.2 = [] then st.1 else st.1 ++ [st.2]) = text := by
  rcases st with ⟨chunks, cur⟩
  rcases h with ⟨⟨gaps, hg, hglen, hinter⟩, hsb1, hsb2⟩
  dsimp only at hglen hinter hsb1 hsb2 ⊢
  by_cases hcur : cur = []
  · rw [if_pos hcur]
    subst hcur
    simp only [List.append_nil] at hinter
    exact ⟨hsb1, gaps, hg, hglen, hinter⟩
  · rw [if_neg hcur]
    constructor
    · intro c hc
      rcases List.mem_append.mp hc with hc | hc
      · exact hsb1 c hc
      · simp at hc
        subst hc
        exact hsb2
    · refine ⟨gaps ++ [[]], ?_, ?_, ?_⟩
      · intro g hgmem
        rcases List.mem_append.mp hgmem with hgm | hgm
        · exact hg g hgm
        · simp at hgm
          subst hgm
          exact IsJoinerSeq.nil
      · simp [hglen]
      · rw [interleave_append_one chunks gaps cur [] hglen]
        simpa using hinter

/-- C2 amended: for every text and every `max_chunk_size ≥ 1`, every chunk
returned by `chunk_text` has length ≤ `max_chunk_size` (the code
character-splits oversized sentences, so the bound holds with no
exception), and the chunks appear in order as disjoint substrings of the
input whose gaps are concatenations of the joiners `"\n\n"` and `". "` —
reconstruction up to dropped joiner runs.  Exact reconstruction with one
joiner reinserted per boundary fails in general (see the counterexample):
an empty paragraph or sentence piece is silently skipped
(`if current_chunk:`), dropping its adjacent joiners. -/
theorem chunkText_reconstruction (text : List Char) (m : Nat) (hm : 1 ≤ m) :
    (∀ c ∈ chunkText text m, c.length ≤ m) ∧
    ∃ gaps, (∀ g ∈ gaps, IsJoinerSeq g) ∧
      gaps.length = (chunkText text m).length + 1 ∧
      interleave gaps (chunkText text m) = text := by
  by_cases hle : text.length ≤ m
  · rw [show chunkText text m = [text] from by rw [chunkText, if_pos hle]]
    refine ⟨?_, ⟨[[], []], ?_, rfl, ?_⟩⟩
    · intro c hc
      simp at hc
      subst hc
      exact hle
    · intro g hg
      simp at hg
      rcases hg with rfl | rfl <;> exact IsJoinerSeq.nil
    · simp [interleave]
  · have hch : chunkText text m =
        (if ((splitSeq2 '\n' '\n' text).foldl (stepPara m) ([], [])).2 = []
         then ((splitSeq2 '\n' '\n' text).foldl (stepPara m) ([], [])).1
         else ((splitSeq2 '\n' '\n' text).foldl (stepPara m) ([], [])).1
           ++ [((splitSeq2 '\n' '\n' text).foldl (stepPara m) ([], [])).2]) := by
      rw [chunkText, if_neg hle]
    have hfold := foldPara_rel m hm (splitSeq2 '\n' '\n' text) [] [] [] []
      (splitSeq2_ne_nil _ _ _) (relSB_init m) IsJoinerSeq.nil
      (fun hh => absurd rfl hh)
    rw [show ([] : List Char) ++ [] ++ joinWith nlnl (splitSeq2 '\n' '\n' text)
        = text from by
      simp only [List.nil_append]
      exact joinWith_splitSeq2 '\n' '\n' text] at hfold
    rw [hch]
    exact relSB_finish m text _ hfold

/-- Witness for `chunkText_reconstruction`: the one-character text at
`max_chunk_size = 1`. -/
theorem chunkText_reconstruction_witness :
    (∀ c ∈ chunkText ['a'] 1, c.length ≤ 1) ∧
    ∃ gaps, (∀ g ∈ gaps, IsJoinerSeq g) ∧
      gaps.length = (chunkText ['a'] 1).length + 1 ∧
      interleave gaps (chunkText ['a'] 1) = ['a'] :=
  chunkText_reconstruction ['a'] 1 (by decide)

/-- Reinserting exactly one joiner (or nothing, at a character-split
boundary) between consecutive chunks: the claim's reading of
"concatenating the returned chunks with the original joiners
reinserted". -/
def reinsert : List (List Char) → List (List Char) → List Char
  | [], _ => []
  | c :: cs, [] => c ++ reinsert cs []
  | c :: cs, sp :: sps => c ++ sp ++ reinsert cs sps

/-- C2 counterexample: on the text `"\n\nXXXXX"` with `max_chunk_size = 5`,
`chunk_text` returns the single chunk `"XXXXX"` — the leading empty
paragraph is skipped and its `"\n\n"` joiner dropped — so no choice of
per-boundary joiners reconstructs the input. -/
theorem chunkText_counterexample :
    chunkText ('\n' :: '\n' :: 'X' :: 'X' :: 'X' :: 'X' :: 'X' ::[]) 5 = [['X','X','X','X','X']] ∧
    ¬ ∃ seps : List (List Char),
        seps.length + 1 = (chunkText ('\n' :: '\n' :: 'X' :: 'X' :: 'X' :: 'X' :: 'X' ::[]) 5).length ∧
        (∀ sp ∈ seps, sp = nlnl ∨ sp = dotSp ∨ sp = []) ∧
        reinsert (chunkText ('\n' :: '\n' :: 'X' :: 'X' :: 'X' :: 'X' :: 'X' ::[]) 5) seps
          = '\n' :: '\n' :: 'X' :: 'X' :: 'X' :: 'X' :: 'X' ::[] := by
  refine ⟨rfl, ?_⟩
  rintro ⟨seps, hlen, -, hrec⟩
  rw [show chunkText ('\n' :: '\n' :: 'X' :: 'X' :: 'X' :: 'X' :: 'X' ::[]) 5
      = [['X','X','X','X','X']] from rfl] at hlen hrec
  have hse : seps = [] := by
    cases seps with
    | nil => rfl
    | cons a as => simp at hlen
  subst hse
  simp [reinsert] at hrec
